import Mathlib

/-!
# Naive Bayes text classifier — verification of `main.go`

Shallow embedding of the classifier from `main.go` (package `main`).
Go's `map[string]T` values are modelled as association lists
`List (String × T)` in key-insertion order, with the Go read-modify-write
idioms (`m[k]++`, comma-ok lookup, plain assignment) translated by the
helpers `lookupA`, `setA`, `incA` below.  Go map iteration order is
unspecified; every property proved here is insensitive to entry order
(key counts, sums and products over entries).  The `float64` counters
only ever hold small integers and exact quotients of them, so they are
modelled as exact rationals `ℚ`.
-/

namespace NaiveBayes

/-- Go comma-ok map read: first value stored under key `k`, if any. -/
def lookupA {α : Type} (m : List (String × α)) (k : String) : Option α :=
  match m with
  | [] => none
  | (k', v) :: rest => if k' = k then some v else lookupA rest k

/-- Go map assignment `m[k] = v`: overwrite in place, or append a new entry. -/
def setA {α : Type} (m : List (String × α)) (k : String) (v : α) :
    List (String × α) :=
  match m with
  | [] => [(k, v)]
  | (k', v') :: rest => if k' = k then (k', v) :: rest else (k', v') :: setA rest k v

/-- Go `m[k]++` on a `map[string]float64`: a missing key reads as 0. -/
def incA (m : List (String × ℚ)) (k : String) : List (String × ℚ) :=
  match m with
  | [] => [(k, 1)]
  | (k', v) :: rest => if k' = k then (k', v + 1) :: rest else (k', v) :: incA rest k

/-- `type Class struct` from `main.go`: document count, the duplicate-retaining
list of observed grams, and the per-gram frequency map. -/
structure Class where
  Documents : ℚ
  Words : List String
  WordFreq : List (String × ℚ)
  deriving Repr, DecidableEq

/-- The zero value a fresh `&Class{WordFreq: make(...)}` starts from. -/
def emptyClass : Class := { Documents := 0, Words := [], WordFreq := [] }

/-- `type Classifier struct` from `main.go`. -/
structure Classifier where
  NSplit : ℕ
  Documents : ℚ
  Classes : List (String × Class)
  UniqueWords : List (String × ℚ)
  deriving Repr, DecidableEq

/-- Character-level model of Go's `strings.Split(s, " ")`: cut at every
space, keeping empty tokens; the empty input yields one empty token. -/
def splitChars (cs : List Char) : List (List Char) :=
  match cs with
  | [] => [[]]
  | c :: rest =>
    if c = ' ' then [] :: splitChars rest
    else
      match splitChars rest with
      | [] => [[c]]
      | w :: ws => (c :: w) :: ws

/-- Go's `strings.Split(sentence, " ")`. -/
def splitOnSpace (sentence : String) : List String :=
  (splitChars sentence.data).map String.mk

/-- Go's `strings.Join(words, " ")`. -/
def joinSpace (words : List String) : String :=
  String.mk (List.intercalate [' '] (words.map String.data))

/-- `SplitWords` from `main.go`: split on single spaces (empty tokens
retained, as `strings.Split` does), return the whole rejoined sentence when
there are at most `size` tokens, otherwise all width-`size` windows with
stride 1, each rejoined by single spaces. -/
def SplitWords (size : ℕ) (sentence : String) : List String :=
  let words := splitOnSpace sentence
  if words.length ≤ size then
    [joinSpace words]
  else
    (List.range (words.length - size + 1)).map
      (fun i => joinSpace ((words.drop i).take size))

/-- `NewClassifier` from `main.go`. -/
def NewClassifier (n : ℕ) : Classifier :=
  { NSplit := n, Documents := 0, Classes := [], UniqueWords := [] }

/-- Per-gram body of `Train`'s loop acting on the class being trained:
append to `Words`, increment `WordFreq[word]`. -/
def trainWord (cls : Class) (word : String) : Class :=
  { cls with Words := cls.Words ++ [word], WordFreq := incA cls.WordFreq word }

/-- `Train` from `main.go`: increment `Documents`, create the class if
missing, increment its document count, then for each gram of the split
sentence update the global vocabulary and the class's `Words`/`WordFreq`. -/
def Train (c : Classifier) (cl : String) (sentence : String) : Classifier :=
  let cls0 := (lookupA c.Classes cl).getD emptyClass
  let cls1 := { cls0 with Documents := cls0.Documents + 1 }
  let words := SplitWords c.NSplit sentence
  { NSplit := c.NSplit
    Documents := c.Documents + 1
    Classes := setA c.Classes cl (words.foldl trainWord cls1)
    UniqueWords := words.foldl incA c.UniqueWords }

/-- `GetPrior` from `main.go`: class document count over total documents.
In Go a missing class label is a nil-pointer panic; it is modelled by the
zero class, and every claim below only evaluates `GetPrior` at labels
present in `Classes`. -/
def GetPrior (c : Classifier) (cl : String) : ℚ :=
  ((lookupA c.Classes cl).getD emptyClass).Documents / c.Documents

/-- The smoothed conditional probability computed inside `Classify`:
`(frequency + 1) / (classWordCount + uniqueWordCount)`, the frequency of a
gram absent from the class's `WordFreq` reading as 0. -/
def smoothedProb (c : Classifier) (data : Class) (g : String) : ℚ :=
  ((lookupA data.WordFreq g).getD 0 + 1) /
    ((data.Words.length : ℚ) + (c.UniqueWords.length : ℚ))

/-- `Classify` from `main.go`: for each known class, start from the prior,
build the map `wProbabilities` keyed by query gram (so a repeated query
gram overwrites its own entry), and multiply the prior by every stored
value. -/
def Classify (c : Classifier) (sentence : String) : List (String × ℚ) :=
  let words := SplitWords c.NSplit sentence
  c.Classes.map (fun p =>
    let prior := GetPrior c p.1
    let wProbabilities :=
      words.foldl (fun m word => setA m word (smoothedProb c p.2 word)) []
    (p.1, wProbabilities.foldl (fun r q => r * q.2) prior))

/-- Run a batch of `Train` calls in order. -/
def trainAll (c : Classifier) (docs : List (String × String)) : Classifier :=
  docs.foldl (fun c d => Train c d.1 d.2) c

/-- State-passing form of the Go method `(c *Classifier) Classify`: the
method body only reads the receiver (no assignment to any field and no map
write on a field reaches `c`), so threading the state through every
statement returns it unchanged. -/
def ClassifyS (c : Classifier) (sentence : String) :
    Classifier × List (String × ℚ) :=
  (c, Classify c sentence)

/-- State-passing form of the Go method `(c *Classifier) GetPrior`; as with
`ClassifyS`, the body is read-only on the receiver. -/
def GetPriorS (c : Classifier) (cl : String) : Classifier × ℚ :=
  (c, GetPrior c cl)

/-- Left fold collecting the distinct elements of `ws` after `acc`, in
order of first occurrence: the key sequence of a Go map populated by
inserting the elements of `ws` in order. -/
def dedupAcc (acc : List String) (ws : List String) : List String :=
  ws.foldl (fun acc w => if w ∈ acc then acc else acc ++ [w]) acc

/-- Modelled from the spec: the per-class score as the spec's sentence for
the claim reads it — starting from the prior, one smoothed factor for
*every occurrence* of a gram in the tokenized query, duplicates included. -/
def specScorePerOcc (c : Classifier) (cl : String) (sentence : String) : ℚ :=
  let data := (lookupA c.Classes cl).getD emptyClass
  (SplitWords c.NSplit sentence).foldl
    (fun r g => r * smoothedProb c data g) (GetPrior c cl)

/-- The per-class score `Classify` actually computes: starting from the
prior, one smoothed factor for every *distinct* gram of the tokenized
query (first-occurrence order), because `wProbabilities` is keyed by
gram. -/
def specScoreDistinct (c : Classifier) (data : Class) (cl : String)
    (sentence : String) : ℚ :=
  (dedupAcc [] (SplitWords c.NSplit sentence)).foldl
    (fun r g => r * smoothedProb c data g) (GetPrior c cl)

/-- The reachable-state invariant maintained by training: total documents
and per-class documents are consistent and non-negative, class keys are
distinct, and each class's gram list length equals the sum of its
frequency map, whose entries are non-negative. -/
structure Inv (c : Classifier) : Prop where
  docs_nonneg : 0 ≤ c.Documents
  sum_docs : ((c.Classes.map (fun p => p.2.Documents)).sum) = c.Documents
  keys_nodup : (c.Classes.map Prod.fst).Nodup
  class_docs_nonneg : ∀ p ∈ c.Classes, 0 ≤ p.2.Documents
  words_len : ∀ p ∈ c.Classes,
    ((p.2.Words.length : ℚ)) = ((p.2.WordFreq.map Prod.snd).sum)
  freq_nonneg : ∀ p ∈ c.Classes, ∀ q ∈ p.2.WordFreq, 0 ≤ q.2

/-! ## Association-list lemmas -/

theorem lookupA_eq_none {α : Type} (m : List (String × α)) (k : String) :
    lookupA m k = none ↔ k ∉ m.map Prod.fst := by
  induction m with
  | nil => simp [lookupA]
  | cons p rest ih =>
    obtain ⟨k', v⟩ := p
    by_cases h : k' = k <;> simp [lookupA, h, ih, Ne.symm]

theorem lookupA_mem {α : Type} {m : List (String × α)} {k : String} {v : α}
    (h : lookupA m k = some v) : (k, v) ∈ m := by
  induction m with
  | nil => simp [lookupA] at h
  | cons p rest ih =>
    obtain ⟨k', v'⟩ := p
    by_cases hk : k' = k
    · simp [lookupA, hk] at h
      simp [hk, h]
    · simp [lookupA, hk] at h
      exact List.mem_cons_of_mem _ (ih h)

theorem lookupA_of_mem_nodup {α : Type} {m : List (String × α)} {k : String}
    {v : α} (hnd : (m.map Prod.fst).Nodup) (h : (k, v) ∈ m) :
    lookupA m k = some v := by
  induction m with
  | nil => simp at h
  | cons p rest ih =>
    obtain ⟨k', v'⟩ := p
    simp only [List.map_cons, List.nodup_cons] at hnd
    rcases List.mem_cons.1 h with h1 | h1
    · obtain ⟨rfl, rfl⟩ := Prod.mk.injEq .. ▸ h1
      simp [lookupA]
    · have hk : k' ≠ k := by
        rintro rfl
        exact hnd.1 (List.mem_map.2 ⟨(k', v), h1, rfl⟩)
      simp [lookupA, hk, ih hnd.2 h1]

theorem setA_of_not_mem {α : Type} {m : List (String × α)} {k : String}
    (v : α) (h : k ∉ m.map Prod.fst) : setA m k v = m ++ [(k, v)] := by
  induction m with
  | nil => simp [setA]
  | cons p rest ih =>
    obtain ⟨k', v'⟩ := p
    simp only [List.map_cons, List.mem_cons, not_or] at h
    simp [setA, Ne.symm h.1, ih h.2]

theorem keys_setA_of_mem {α : Type} {m : List (String × α)} {k : String}
    (v : α) (h : k ∈ m.map Prod.fst) :
    (setA m k v).map Prod.fst = m.map Prod.fst := by
  induction m with
  | nil => simp at h
  | cons p rest ih =>
    obtain ⟨k', v'⟩ := p
    by_cases hk : k' = k
    · simp [setA, hk]
    · simp only [List.map_cons, List.mem_cons] at h
      rcases h with h | h
      · exact absurd h.symm hk
      · simp [setA, hk, ih h]

theorem keys_setA_nodup {α : Type} {m : List (String × α)} {k : String}
    (v : α) (hnd : (m.map Prod.fst).Nodup) :
    ((setA m k v).map Prod.fst).Nodup := by
  by_cases h : k ∈ m.map Prod.fst
  · rw [keys_setA_of_mem v h]; exact hnd
  · rw [setA_of_not_mem v h]
    simpa using List.Nodup.append hnd (List.nodup_singleton k)
      (by simpa using h)

theorem mem_setA {α : Type} {m : List (String × α)} {k : String} {v : α}
    {p : String × α} (h : p ∈ setA m k v) : p = (k, v) ∨ p ∈ m := by
  induction m with
  | nil => simpa [setA] using h
  | cons q rest ih =>
    obtain ⟨k', v'⟩ := q
    by_cases hk : k' = k
    · subst hk
      rcases List.mem_cons.1 (by simpa [setA] using h) with h1 | h1
      · exact Or.inl h1
      · exact Or.inr (List.mem_cons_of_mem _ h1)
    · rcases List.mem_cons.1 (by simpa [setA, hk] using h) with h1 | h1
      · exact Or.inr (List.mem_cons.2 (Or.inl h1))
      · rcases ih h1 with h2 | h2
        · exact Or.inl h2
        · exact Or.inr (List.mem_cons_of_mem _ h2)

theorem lookupA_setA_self {α : Type} (m : List (String × α)) (k : String)
    (v : α) : lookupA (setA m k v) k = some v := by
  induction m with
  | nil => simp [setA, lookupA]
  | cons p rest ih =>
    obtain ⟨k', v'⟩ := p
    by_cases hk : k' = k <;> simp [setA, lookupA, hk, ih]

theorem sum_setA_of_lookup_some {α : Type} (f : α → ℚ)
    {m : List (String × α)} {k : String} {w : α} (v : α)
    (hnd : (m.map Prod.fst).Nodup) (h : lookupA m k = some w) :
    ((setA m k v).map (fun p => f p.2)).sum
      = (m.map (fun p => f p.2)).sum - f w + f v := by
  induction m with
  | nil => simp [lookupA] at h
  | cons p rest ih =>
    obtain ⟨k', v'⟩ := p
    simp only [List.map_cons, List.nodup_cons] at hnd
    by_cases hk : k' = k
    · subst hk
      simp only [lookupA, if_true, eq_self_iff_true, if_pos, Option.some.injEq] at h
      subst h
      simp [setA]
      ring
    · simp only [lookupA, hk, if_neg hk] at h
      simp [setA, hk, ih hnd.2 h]
      ring

theorem sum_incA (m : List (String × ℚ)) (k : String) :
    ((incA m k).map Prod.snd).sum = (m.map Prod.snd).sum + 1 := by
  induction m with
  | nil => simp [incA]
  | cons p rest ih =>
    obtain ⟨k', v⟩ := p
    by_cases hk : k' = k
    · simp [incA, hk]; ring
    · simp [incA, hk, ih]; ring

theorem mem_incA_nonneg {m : List (String × ℚ)} {k : String}
    (hm : ∀ q ∈ m, 0 ≤ q.2) : ∀ q ∈ incA m k, 0 ≤ q.2 := by
  induction m with
  | nil =>
    intro q hq
    simp only [incA, List.mem_singleton] at hq
    simp [hq]
  | cons p rest ih =>
    obtain ⟨k', v⟩ := p
    intro q hq
    by_cases hk : k' = k
    · rcases List.mem_cons.1 (by simpa [incA, hk] using hq) with h1 | h1
      · have : (0 : ℚ) ≤ v := hm (k', v) (List.mem_cons_self _ _)
        simp [h1]; linarith
      · exact hm q (List.mem_cons_of_mem _ h1)
    · rcases List.mem_cons.1 (by simpa [incA, hk] using hq) with h1 | h1
      · exact h1 ▸ hm (k', v) (List.mem_cons_self _ _)
      · exact ih (fun q hq => hm q (List.mem_cons_of_mem _ hq)) q h1

theorem incA_ne_nil (m : List (String × ℚ)) (k : String) : incA m k ≠ [] := by
  cases m with
  | nil => simp [incA]
  | cons p rest =>
    obtain ⟨k', v⟩ := p
    by_cases hk : k' = k <;> simp [incA, hk]

theorem foldl_incA_ne_nil {m : List (String × ℚ)} (ws : List String)
    (hm : m ≠ []) : ws.foldl incA m ≠ [] := by
  induction ws generalizing m with
  | nil => exact hm
  | cons w ws ih => exact ih (incA_ne_nil m w)

theorem foldl_incA_nonneg {m : List (String × ℚ)} (ws : List String)
    (hm : ∀ q ∈ m, 0 ≤ q.2) : ∀ q ∈ ws.foldl incA m, 0 ≤ q.2 := by
  induction ws generalizing m with
  | nil => exact hm
  | cons w ws ih => exact ih (mem_incA_nonneg hm)

/-! ## Tokenizer lemmas -/

theorem splitChars_ne_nil (cs : List Char) : splitChars cs ≠ [] := by
  cases cs with
  | nil => simp [splitChars]
  | cons c rest =>
    by_cases hc : c = ' '
    · simp [splitChars, hc]
    · simp only [splitChars, if_neg hc]
      cases splitChars rest <;> simp

theorem intercalate_single {α : Type} (sep x : List α) :
    List.intercalate sep [x] = x := by
  simp [List.intercalate]

theorem intercalate_two {α : Type} (sep x y : List α) (zs : List (List α)) :
    List.intercalate sep (x :: y :: zs)
      = x ++ sep ++ List.intercalate sep (y :: zs) := by
  simp [List.intercalate, List.intersperse_cons_cons, List.append_assoc]

theorem intercalate_splitChars (cs : List Char) :
    List.intercalate [' '] (splitChars cs) = cs := by
  induction cs with
  | nil => simp [splitChars, intercalate_single]
  | cons c rest ih =>
    by_cases hc : c = ' '
    · subst hc
      rw [show splitChars (' ' :: rest) = [] :: splitChars rest by
        simp [splitChars]]
      obtain ⟨w, ws, hw⟩ := List.exists_cons_of_ne_nil (splitChars_ne_nil rest)
      rw [hw] at ih ⊢
      rw [intercalate_two]
      simpa using ih
    · obtain ⟨w, ws, hw⟩ := List.exists_cons_of_ne_nil (splitChars_ne_nil rest)
      rw [show splitChars (c :: rest) = (c :: w) :: ws by
        simp [splitChars, if_neg hc, hw]]
      rw [hw] at ih
      cases ws with
      | nil => simpa [intercalate_single] using ih
      | cons w' ws' =>
        rw [intercalate_two] at ih ⊢
        simpa using ih

theorem joinSpace_splitOnSpace (s : String) : joinSpace (splitOnSpace s) = s := by
  show String.mk (List.intercalate [' ']
    (((splitChars s.data).map String.mk).map String.data)) = s
  rw [List.map_map]
  have : (String.data ∘ String.mk) = id := rfl
  rw [this, List.map_id, intercalate_splitChars]

theorem splitWords_ne_nil (size : ℕ) (s : String) : SplitWords size s ≠ [] := by
  unfold SplitWords
  by_cases h : (splitOnSpace s).length ≤ size
  · simp [h]
  · simp [h]

theorem splitOnSpace_empty : splitOnSpace "" = [""] := rfl

theorem splitWords_empty {size : ℕ} (h : 1 ≤ size) :
    SplitWords size "" = [""] := by
  unfold SplitWords
  rw [splitOnSpace_empty, if_pos (by simpa using h)]
  rfl

/-! ## The `wProbabilities` map: one entry per distinct query gram -/

theorem setA_map_value_self (f : String → ℚ) {w : String} {L : List String}
    (h : w ∈ L) :
    setA (L.map (fun u => (u, f u))) w (f w) = L.map (fun u => (u, f u)) := by
  induction L with
  | nil => simp at h
  | cons u L ih =>
    by_cases hu : u = w
    · subst hu
      simp [setA]
    · rcases List.mem_cons.1 h with h1 | h1
      · exact absurd h1.symm hu
      · simp [setA, hu, ih h1]

theorem setA_map_value_not_mem (f : String → ℚ) {w : String} {L : List String}
    (h : w ∉ L) :
    setA (L.map (fun u => (u, f u))) w (f w)
      = (L ++ [w]).map (fun u => (u, f u)) := by
  have hk : w ∉ (L.map (fun u => (u, f u))).map Prod.fst := by
    simpa [List.map_map, Function.comp] using h
  rw [setA_of_not_mem _ hk]
  simp

theorem foldl_setA_eq_dedup (f : String → ℚ) (ws L : List String) :
    ws.foldl (fun m w => setA m w (f w)) (L.map (fun u => (u, f u)))
      = (dedupAcc L ws).map (fun u => (u, f u)) := by
  induction ws generalizing L with
  | nil => rfl
  | cons w ws ih =>
    show ws.foldl _ (setA (L.map fun u => (u, f u)) w (f w))
      = (dedupAcc (if w ∈ L then L else L ++ [w]) ws).map _
    by_cases hw : w ∈ L
    · rw [if_pos hw, setA_map_value_self f hw]
      exact ih L
    · rw [if_neg hw, setA_map_value_not_mem f hw]
      exact ih (L ++ [w])

theorem wprob_eq_dedup (f : String → ℚ) (ws : List String) :
    ws.foldl (fun m w => setA m w (f w)) []
      = (dedupAcc [] ws).map (fun u => (u, f u)) := by
  simpa using foldl_setA_eq_dedup f ws []

theorem foldl_mul_nonneg (f : String → ℚ) (l : List String) {a : ℚ}
    (ha : 0 ≤ a) (hf : ∀ w ∈ l, 0 ≤ f w) :
    0 ≤ l.foldl (fun r w => r * f w) a := by
  induction l generalizing a with
  | nil => exact ha
  | cons w l ih =>
    exact ih (mul_nonneg ha (hf w (List.mem_cons_self _ _)))
      (fun u hu => hf u (List.mem_cons_of_mem _ hu))

/-! ## Train: basic shape and the reachable-state invariant -/

theorem foldl_trainWord_documents (ws : List String) (x : Class) :
    (ws.foldl trainWord x).Documents = x.Documents := by
  induction ws generalizing x with
  | nil => rfl
  | cons w ws ih => simpa [trainWord] using ih (trainWord x w)

theorem foldl_trainWord_words (ws : List String) (x : Class) :
    (ws.foldl trainWord x).Words = x.Words ++ ws := by
  induction ws generalizing x with
  | nil => simp
  | cons w ws ih =>
    rw [List.foldl_cons, ih (trainWord x w)]
    show (x.Words ++ [w]) ++ ws = _
    rw [List.append_assoc]
    rfl

theorem foldl_trainWord_wordFreq (ws : List String) (x : Class) :
    (ws.foldl trainWord x).WordFreq = ws.foldl incA x.WordFreq := by
  induction ws generalizing x with
  | nil => rfl
  | cons w ws ih => simpa [trainWord] using ih (trainWord x w)

theorem foldl_incA_sum (ws : List String) (m : List (String × ℚ)) :
    ((ws.foldl incA m).map Prod.snd).sum = (m.map Prod.snd).sum + ws.length := by
  induction ws generalizing m with
  | nil => simp
  | cons w ws ih =>
    rw [List.foldl_cons, ih (incA m w), sum_incA]
    simp only [List.length_cons]
    push_cast
    ring

theorem train_nsplit (c : Classifier) (cl s : String) :
    (Train c cl s).NSplit = c.NSplit := rfl

theorem train_documents (c : Classifier) (cl s : String) :
    (Train c cl s).Documents = c.Documents + 1 := rfl

theorem train_unique_ne_nil (c : Classifier) (cl s : String) :
    (Train c cl s).UniqueWords ≠ [] := by
  show (SplitWords c.NSplit s).foldl incA c.UniqueWords ≠ []
  obtain ⟨w, ws, hw⟩ :=
    List.exists_cons_of_ne_nil (splitWords_ne_nil c.NSplit s)
  rw [hw, List.foldl_cons]
  exact foldl_incA_ne_nil ws (incA_ne_nil c.UniqueWords w)

theorem train_classes (c : Classifier) (cl s : String) :
    (Train c cl s).Classes
      = setA c.Classes cl
          ((SplitWords c.NSplit s).foldl trainWord
            { (lookupA c.Classes cl).getD emptyClass with
              Documents := ((lookupA c.Classes cl).getD emptyClass).Documents + 1 }) :=
  rfl

theorem train_lookup_self (c : Classifier) (cl s : String) :
    lookupA (Train c cl s).Classes cl
      = some ((SplitWords c.NSplit s).foldl trainWord
          { (lookupA c.Classes cl).getD emptyClass with
            Documents := ((lookupA c.Classes cl).getD emptyClass).Documents + 1 }) := by
  rw [train_classes]
  exact lookupA_setA_self ..

theorem inv_new (n : ℕ) : Inv (NewClassifier n) := by
  refine ⟨le_refl 0, rfl, List.nodup_nil, ?_, ?_, ?_⟩ <;> simp [NewClassifier]

theorem inv_train {c : Classifier} (hc : Inv c) (cl s : String) :
    Inv (Train c cl s) := by
  set cls0 := (lookupA c.Classes cl).getD emptyClass with hcls0
  set cls1 : Class := { cls0 with Documents := cls0.Documents + 1 } with hcls1
  set words := SplitWords c.NSplit s with hwords
  set cls2 := words.foldl trainWord cls1 with hcls2
  have hCl : (Train c cl s).Classes = setA c.Classes cl cls2 := rfl
  have hD : (Train c cl s).Documents = c.Documents + 1 := rfl
  have hcls0_doc : 0 ≤ cls0.Documents := by
    rcases h : lookupA c.Classes cl with _ | w
    · simp [hcls0, h, emptyClass]
    · simpa [hcls0, h] using hc.class_docs_nonneg (cl, w) (lookupA_mem h)
  have hcls0_len : ((cls0.Words.length : ℚ))
      = ((cls0.WordFreq.map Prod.snd).sum) := by
    rcases h : lookupA c.Classes cl with _ | w
    · simp [hcls0, h, emptyClass]
    · simpa [hcls0, h] using hc.words_len (cl, w) (lookupA_mem h)
  have hcls0_freq : ∀ q ∈ cls0.WordFreq, 0 ≤ q.2 := by
    rcases h : lookupA c.Classes cl with _ | w
    · simp [hcls0, h, emptyClass]
    · simpa [hcls0, h] using hc.freq_nonneg (cl, w) (lookupA_mem h)
  have hcls2_doc : cls2.Documents = cls0.Documents + 1 := by
    rw [hcls2, foldl_trainWord_documents]
  have hcls2_len : ((cls2.Words.length : ℚ))
      = ((cls2.WordFreq.map Prod.snd).sum) := by
    rw [hcls2, foldl_trainWord_words, foldl_trainWord_wordFreq, foldl_incA_sum]
    have h1 : cls1.Words = cls0.Words := rfl
    have h2 : cls1.WordFreq = cls0.WordFreq := rfl
    rw [h1, h2, List.length_append]
    push_cast
    rw [hcls0_len]
  have hcls2_freq : ∀ q ∈ cls2.WordFreq, 0 ≤ q.2 := by
    rw [hcls2, foldl_trainWord_wordFreq]
    exact foldl_incA_nonneg words hcls0_freq
  refine ⟨?_, ?_, ?_, ?_, ?_, ?_⟩
  · rw [hD]; linarith [hc.docs_nonneg]
  · rw [hCl, hD]
    rcases h : lookupA c.Classes cl with _ | w
    · rw [setA_of_not_mem _ ((lookupA_eq_none c.Classes cl).1 h)]
      have : cls0 = emptyClass := by simp [hcls0, h]
      simp only [List.map_append, List.sum_append, List.map_cons,
        List.map_nil, List.sum_cons, List.sum_nil, hc.sum_docs]
      rw [hcls2_doc, this]
      show c.Documents + (emptyClass.Documents + 1 + 0) = c.Documents + 1
      simp [emptyClass]
    · rw [sum_setA_of_lookup_some _ cls2 hc.keys_nodup h, hc.sum_docs,
        hcls2_doc]
      have : cls0 = w := by simp [hcls0, h]
      rw [this]
      ring
  · rw [hCl]; exact keys_setA_nodup _ hc.keys_nodup
  · rw [hCl]
    intro p hp
    rcases mem_setA hp with h | h
    · rw [h]; simp only []; rw [hcls2_doc]; linarith
    · exact hc.class_docs_nonneg p h
  · rw [hCl]
    intro p hp
    rcases mem_setA hp with h | h
    · rw [h]; exact hcls2_len
    · exact hc.words_len p h
  · rw [hCl]
    intro p hp
    rcases mem_setA hp with h | h
    · rw [h]; exact hcls2_freq
    · exact hc.freq_nonneg p h

theorem inv_trainAll {c : Classifier} (hc : Inv c)
    (docs : List (String × String)) : Inv (trainAll c docs) := by
  induction docs generalizing c with
  | nil => exact hc
  | cons d docs ih => exact ih (inv_train hc d.1 d.2)

theorem trainAll_documents (c : Classifier) (docs : List (String × String)) :
    (trainAll c docs).Documents = c.Documents + docs.length := by
  induction docs generalizing c with
  | nil => simp [trainAll]
  | cons d docs ih =>
    show (trainAll (Train c d.1 d.2) docs).Documents = _
    rw [ih, train_documents]
    simp only [List.length_cons]
    push_cast
    ring

theorem trainAll_unique_ne_nil {c : Classifier}
    {docs : List (String × String)} (h : docs ≠ []) :
    (trainAll c docs).UniqueWords ≠ [] := by
  obtain ⟨d, ds, rfl⟩ := List.exists_cons_of_ne_nil h
  have aux : ∀ (ds : List (String × String)) (c : Classifier),
      c.UniqueWords ≠ [] → (trainAll c ds).UniqueWords ≠ [] := by
    intro ds
    induction ds with
    | nil => exact fun c h => h
    | cons e es ih =>
      exact fun c _ => ih (Train c e.1 e.2) (train_unique_ne_nil c e.1 e.2)
  exact aux ds (Train c d.1 d.2) (train_unique_ne_nil c d.1 d.2)

/-! ## Classify: characterization and bounds -/

theorem classify_eq_dedup (c : Classifier) (s : String) :
    Classify c s
      = c.Classes.map (fun p => (p.1, specScoreDistinct c p.2 p.1 s)) := by
  unfold Classify specScoreDistinct
  refine List.map_congr_left (fun p _ => ?_)
  rw [wprob_eq_dedup (fun word => smoothedProb c p.2 word)
    (SplitWords c.NSplit s)]
  simp only [List.foldl_map]

theorem getPrior_nonneg {c : Classifier} (hc : Inv c) (cl : String) :
    0 ≤ GetPrior c cl := by
  unfold GetPrior
  rcases h : lookupA c.Classes cl with _ | w
  · simp [emptyClass]
  · exact div_nonneg
      (by simpa using hc.class_docs_nonneg (cl, w) (lookupA_mem h))
      hc.docs_nonneg

theorem freq_getD_nonneg {c : Classifier} (hc : Inv c) {p : String × Class}
    (hp : p ∈ c.Classes) (g : String) :
    0 ≤ (lookupA p.2.WordFreq g).getD 0 := by
  rcases h : lookupA p.2.WordFreq g with _ | v
  · simp
  · simpa using hc.freq_nonneg p hp (g, v) (lookupA_mem h)

theorem freq_getD_le_len {c : Classifier} (hc : Inv c) {p : String × Class}
    (hp : p ∈ c.Classes) (g : String) :
    (lookupA p.2.WordFreq g).getD 0 ≤ (p.2.Words.length : ℚ) := by
  rcases h : lookupA p.2.WordFreq g with _ | v
  · simp
  · rw [hc.words_len p hp]
    simpa using List.single_le_sum
      (l := p.2.WordFreq.map Prod.snd)
      (by
        intro x hx
        obtain ⟨q, hq, rfl⟩ := List.mem_map.1 hx
        exact hc.freq_nonneg p hp q hq)
      v (List.mem_map.2 ⟨(g, v), lookupA_mem h, rfl⟩)

theorem uniqueWords_len_pos {c : Classifier} (h : c.UniqueWords ≠ []) :
    (1 : ℚ) ≤ (c.UniqueWords.length : ℚ) := by
  have : 1 ≤ c.UniqueWords.length := List.length_pos.2 h
  exact_mod_cast this

theorem smoothedProb_pos {c : Classifier} (hc : Inv c)
    (hu : c.UniqueWords ≠ []) {p : String × Class} (hp : p ∈ c.Classes)
    (g : String) : 0 < smoothedProb c p.2 g := by
  unfold smoothedProb
  apply div_pos
  · have := freq_getD_nonneg hc hp g
    linarith
  · have h1 := uniqueWords_len_pos hu
    have h2 : (0 : ℚ) ≤ (p.2.Words.length : ℚ) := by positivity
    linarith

theorem smoothedProb_le_one {c : Classifier} (hc : Inv c)
    (hu : c.UniqueWords ≠ []) {p : String × Class} (hp : p ∈ c.Classes)
    (g : String) : smoothedProb c p.2 g ≤ 1 := by
  unfold smoothedProb
  rw [div_le_one (by
    have h1 := uniqueWords_len_pos hu
    have h2 : (0 : ℚ) ≤ (p.2.Words.length : ℚ) := by positivity
    linarith)]
  have h1 := freq_getD_le_len hc hp g
  have h2 := uniqueWords_len_pos hu
  linarith

theorem specScoreDistinct_nonneg {c : Classifier} (hc : Inv c)
    (hu : c.UniqueWords ≠ []) {p : String × Class} (hp : p ∈ c.Classes)
    (s : String) : 0 ≤ specScoreDistinct c p.2 p.1 s := by
  unfold specScoreDistinct
  exact foldl_mul_nonneg _ _ (getPrior_nonneg hc p.1)
    (fun w _ => le_of_lt (smoothedProb_pos hc hu hp w))

/-! ## Priors -/

theorem sum_map_div {α : Type} (l : List α) (g : α → ℚ) (d : ℚ) :
    (l.map (fun x => g x / d)).sum = (l.map g).sum / d := by
  induction l with
  | nil => simp
  | cons x l ih => simp [ih, add_div]

theorem getPrior_entry {c : Classifier} (hc : Inv c) {p : String × Class}
    (hp : p ∈ c.Classes) : GetPrior c p.1 = p.2.Documents / c.Documents := by
  unfold GetPrior
  rw [lookupA_of_mem_nodup hc.keys_nodup hp]
  rfl

theorem sum_priors {c : Classifier} (hc : Inv c) (hD : c.Documents ≠ 0) :
    (c.Classes.map (fun p => GetPrior c p.1)).sum = 1 := by
  rw [List.map_congr_left (fun p hp => getPrior_entry hc hp),
    sum_map_div, hc.sum_docs, div_self hD]

/-! ## Claims -/

/-- C3: for `size ≥ 1` and a sentence with strictly more than `size` raw
tokens (split on single spaces, empty tokens retained), `SplitWords`
returns exactly `tokenCount - size + 1` windows in left-to-right order, the
`i`-th being the `size` consecutive tokens starting at position `i`
rejoined by single spaces; in particular
`SplitWords 1 "this outputs words" = ["this", "outputs", "words"]` and
`SplitWords 2 "this outputs words" = ["this outputs", "outputs words"]`. -/
theorem splitWords_windowing (size : ℕ) (s : String)
    (h1 : 1 ≤ size) (h2 : size < (splitOnSpace s).length) :
    (SplitWords size s).length = (splitOnSpace s).length - size + 1 ∧
    (∀ i, i < (splitOnSpace s).length - size + 1 →
      (SplitWords size s)[i]?
        = some (joinSpace (((splitOnSpace s).drop i).take size))) ∧
    SplitWords 1 "this outputs words" = ["this", "outputs", "words"] ∧
    SplitWords 2 "this outputs words" = ["this outputs", "outputs words"] := by
  refine ⟨?_, ?_, rfl, rfl⟩
  · unfold SplitWords
    rw [if_neg (not_le.2 h2)]
    simp
  · intro i hi
    unfold SplitWords
    rw [if_neg (not_le.2 h2)]
    simp [List.getElem?_map, List.getElem?_range, hi]

/-- Witness for C3 at `size = 1`, `s = "this outputs words"`. -/
theorem splitWords_windowing_witness :
    (1 ≤ 1 ∧ 1 < (splitOnSpace "this outputs words").length) ∧
    ((SplitWords 1 "this outputs words").length
        = (splitOnSpace "this outputs words").length - 1 + 1 ∧
      (∀ i, i < (splitOnSpace "this outputs words").length - 1 + 1 →
        (SplitWords 1 "this outputs words")[i]?
          = some (joinSpace
              (((splitOnSpace "this outputs words").drop i).take 1))) ∧
      SplitWords 1 "this outputs words" = ["this", "outputs", "words"] ∧
      SplitWords 2 "this outputs words" = ["this outputs", "outputs words"]) :=
  ⟨⟨le_refl 1, by decide⟩,
    splitWords_windowing 1 "this outputs words" (le_refl 1) (by decide)⟩

/-- C4: when the raw token count is at most `size`, `SplitWords` returns a
single-element sequence whose only element is the original sentence (its
tokens rejoined by single spaces reproduce the sentence, since the split
was on single spaces). -/
theorem splitWords_short_input (size : ℕ) (s : String)
    (h : (splitOnSpace s).length ≤ size) :
    SplitWords size s = [s] := by
  unfold SplitWords
  rw [if_pos h, joinSpace_splitOnSpace]

/-- Witness for C4 at `size = 3`, `s = "a b"`. -/
theorem splitWords_short_input_witness :
    (splitOnSpace "a b").length ≤ 3 ∧ SplitWords 3 "a b" = ["a b"] :=
  ⟨by decide, splitWords_short_input 3 "a b" (by decide)⟩

/-- C5: after any batch of `Train` calls on a fresh classifier,
`Documents` equals the number of calls, and equals the sum of the
per-class document counts. -/
theorem totalDocuments_consistency (n : ℕ) (docs : List (String × String)) :
    (trainAll (NewClassifier n) docs).Documents = (docs.length : ℚ) ∧
    (trainAll (NewClassifier n) docs).Documents
      = ((trainAll (NewClassifier n) docs).Classes.map
          (fun p => p.2.Documents)).sum := by
  constructor
  · rw [trainAll_documents]
    show (0 : ℚ) + _ = _
    ring
  · exact (inv_trainAll (inv_new n) docs).sum_docs.symm

/-- C6: after any batch of `Train` calls on a fresh classifier, every class
satisfies `len(Words) = sum(WordFreq.values())`. -/
theorem class_words_length_eq_freq_sum (n : ℕ)
    (docs : List (String × String)) :
    ∀ p ∈ (trainAll (NewClassifier n) docs).Classes,
      ((p.2.Words.length : ℚ)) = ((p.2.WordFreq.map Prod.snd).sum) :=
  (inv_trainAll (inv_new n) docs).words_len

/-- Witness for C6 after training `"a b"` into class `"c"`. -/
theorem class_words_length_eq_freq_sum_witness :
    (("c", Class.mk 1 ["a", "b"] [("a", 1), ("b", 1)])
        ∈ (trainAll (NewClassifier 1) [("c", "a b")]).Classes) ∧
    (((Class.mk 1 ["a", "b"] [("a", 1), ("b", 1)]).Words.length : ℚ))
      = (((Class.mk 1 ["a", "b"] [("a", 1), ("b", 1)]).WordFreq.map
          Prod.snd).sum) := by
  have hC : (trainAll (NewClassifier 1) [("c", "a b")]).Classes
      = [("c", Class.mk 1 ["a", "b"] [("a", 1), ("b", 1)])] := by
    with_unfolding_all rfl
  have hm : ("c", Class.mk 1 ["a", "b"] [("a", 1), ("b", 1)])
      ∈ (trainAll (NewClassifier 1) [("c", "a b")]).Classes := by
    rw [hC]; exact List.mem_singleton_self _
  exact ⟨hm, class_words_length_eq_freq_sum 1 [("c", "a b")] _ hm⟩

/-- C9: `Classify` on a classifier with no classes returns the empty
mapping. -/
theorem classify_empty_classes (c : Classifier) (s : String)
    (h : c.Classes = []) : Classify c s = [] := by
  unfold Classify
  rw [h]
  rfl

/-- Witness for C9 on a freshly constructed classifier. -/
theorem classify_empty_classes_witness :
    (NewClassifier 1).Classes = [] ∧ Classify (NewClassifier 1) "x" = [] :=
  ⟨rfl, classify_empty_classes (NewClassifier 1) "x" rfl⟩

/-- C10: `Classify` and `GetPrior` leave the classifier state unchanged:
in the state-passing translation of the two read-only Go methods, the
state component of the result equals the input state (hence every field —
`NSplit`, `Documents`, `Classes` with all class data, `UniqueWords` — is
preserved). -/
theorem classify_getPrior_pure (c : Classifier) (s cl : String) :
    (ClassifyS c s).1 = c ∧ (GetPriorS c cl).1 = c :=
  ⟨rfl, rfl⟩

/-- C7: on any classifier reached by at least one `Train` call, every
per-class score returned by `Classify` is non-negative, and every smoothed
factor `(frequency + 1) / (len Words + vocabulary key count)` lies in
`(0, 1]`. -/
theorem classify_nonneg_and_factors_in_unit_interval
    (n : ℕ) (docs : List (String × String)) (s : String) (h : docs ≠ []) :
    (∀ q ∈ Classify (trainAll (NewClassifier n) docs) s, 0 ≤ q.2) ∧
    (∀ p ∈ (trainAll (NewClassifier n) docs).Classes,
      ∀ g ∈ SplitWords (trainAll (NewClassifier n) docs).NSplit s,
        0 < smoothedProb (trainAll (NewClassifier n) docs) p.2 g ∧
          smoothedProb (trainAll (NewClassifier n) docs) p.2 g ≤ 1) := by
  have hinv := inv_trainAll (inv_new n) docs
  have hu : (trainAll (NewClassifier n) docs).UniqueWords ≠ [] :=
    trainAll_unique_ne_nil h
  constructor
  · intro q hq
    rw [classify_eq_dedup] at hq
    obtain ⟨p, hp, rfl⟩ := List.mem_map.1 hq
    exact specScoreDistinct_nonneg hinv hu hp s
  · intro p hp g _
    exact ⟨smoothedProb_pos hinv hu hp g, smoothedProb_le_one hinv hu hp g⟩

/-- Witness for C7 after training `"b"` into class `"c"`, query `"a a"`. -/
theorem classify_nonneg_and_factors_in_unit_interval_witness :
    (([("c", "b")] : List (String × String)) ≠ []) ∧
    ((∀ q ∈ Classify (trainAll (NewClassifier 1) [("c", "b")]) "a a",
        0 ≤ q.2) ∧
      (∀ p ∈ (trainAll (NewClassifier 1) [("c", "b")]).Classes,
        ∀ g ∈ SplitWords (trainAll (NewClassifier 1) [("c", "b")]).NSplit "a a",
          0 < smoothedProb (trainAll (NewClassifier 1) [("c", "b")]) p.2 g ∧
            smoothedProb (trainAll (NewClassifier 1) [("c", "b")]) p.2 g ≤ 1)) :=
  ⟨by decide,
    classify_nonneg_and_factors_in_unit_interval 1 [("c", "b")] "a a"
      (by decide)⟩

/-- C8: after at least one `Train` call (each call assigning its document
to exactly one class), the priors over all trained classes sum to exactly
1 in exact rational arithmetic. -/
theorem priors_sum_to_one (n : ℕ) (docs : List (String × String))
    (h : docs ≠ []) :
    ((trainAll (NewClassifier n) docs).Classes.map
      (fun p => GetPrior (trainAll (NewClassifier n) docs) p.1)).sum = 1 := by
  have hinv := inv_trainAll (inv_new n) docs
  have hD : (trainAll (NewClassifier n) docs).Documents = (docs.length : ℚ) := by
    rw [trainAll_documents]
    show (0 : ℚ) + _ = _
    ring
  have hne : (trainAll (NewClassifier n) docs).Documents ≠ 0 := by
    rw [hD]
    exact Nat.cast_ne_zero.2 (fun h0 => h (List.length_eq_zero.1 h0))
  exact sum_priors hinv hne

/-- Witness for C8 after training `"b"` into class `"c"`. -/
theorem priors_sum_to_one_witness :
    (([("c", "b")] : List (String × String)) ≠ []) ∧
    ((trainAll (NewClassifier 1) [("c", "b")]).Classes.map
      (fun p => GetPrior (trainAll (NewClassifier 1) [("c", "b")]) p.1)).sum
        = 1 :=
  ⟨by decide, priors_sum_to_one 1 [("c", "b")] (by decide)⟩

/-- C1 counterexample: train one document `"b"` into class `"c"` with
`nSplit = 1` and classify `"a a"`.  The query tokenizes to the gram `"a"`
twice, but `Classify` stores the factor in a map keyed by gram, so the
factor `1/2` is multiplied in once and the score is `1 * 1/2 = 1/2`; the
claim's per-occurrence product would be `1 * 1/2 * 1/2 = 1/4`. -/
theorem classify_perOccurrence_counterexample :
    Classify (trainAll (NewClassifier 1) [("c", "b")]) "a a" = [("c", 1/2)] ∧
    specScorePerOcc (trainAll (NewClassifier 1) [("c", "b")]) "c" "a a"
      = 1/4 ∧
    ((1 : ℚ)/2) ≠ 1/4 := by
  refine ⟨?_, ?_, by norm_num⟩
  · with_unfolding_all rfl
  · with_unfolding_all rfl

/-- C1 amended: for every classifier and query sentence, `Classify`
returns, for each known class, the score obtained from `GetPrior` of that
class multiplied by one smoothed factor
`(frequency(g in c) + 1) / (len Words + vocabulary key count)` for each
*distinct* n-gram `g` of the tokenized query — a repeated query gram
contributes a single factor, because the factors are stored in a map keyed
by gram before being multiplied. -/
theorem classify_scores_distinct_grams (c : Classifier) (s : String) :
    Classify c s
      = c.Classes.map (fun p => (p.1, specScoreDistinct c p.2 p.1 s)) :=
  classify_eq_dedup c s

/-- C2 counterexample: `Train` of the empty sentence on a fresh classifier.
`strings.Split("", " ")` yields one empty token, so `SplitWords` returns
`[""]` — one gram — and `Train` adds that gram to the vocabulary, to the
class's `Words` and to its `WordFreq`, contradicting the claim that an
empty string adds no n-grams. -/
theorem train_empty_sentence_counterexample :
    (Train (NewClassifier 1) "x" "").UniqueWords = [("", 1)] ∧
    ((lookupA (Train (NewClassifier 1) "x" "").Classes "x").map Class.Words)
      = some [""] ∧
    ((lookupA (Train (NewClassifier 1) "x" "").Classes "x").map
        Class.WordFreq)
      = some [("", 1)] := by
  refine ⟨?_, ?_, ?_⟩ <;> with_unfolding_all rfl

/-- C2 amended: `Train` never fails; for every class label and sentence it
increments `Documents` and the class's document count by one, and for the
empty sentence (which tokenizes to the single empty gram, not to zero
grams) it adds exactly one n-gram — the empty string — to the vocabulary,
to the class's `Words`, and to its `WordFreq`. -/
theorem train_increments_empty_sentence_one_gram
    (c : Classifier) (cl s : String) (h : 1 ≤ c.NSplit) :
    (Train c cl s).Documents = c.Documents + 1 ∧
    ((lookupA (Train c cl s).Classes cl).map Class.Documents)
      = some (((lookupA c.Classes cl).getD emptyClass).Documents + 1) ∧
    SplitWords c.NSplit "" = [""] ∧
    (Train c cl "").UniqueWords = incA c.UniqueWords "" ∧
    ((lookupA (Train c cl "").Classes cl).map Class.Words)
      = some (((lookupA c.Classes cl).getD emptyClass).Words ++ [""]) ∧
    ((lookupA (Train c cl "").Classes cl).map Class.WordFreq)
      = some (incA ((lookupA c.Classes cl).getD emptyClass).WordFreq "") := by
  refine ⟨rfl, ?_, splitWords_empty h, ?_, ?_, ?_⟩
  · rw [train_lookup_self]
    simp [foldl_trainWord_documents]
  · show (SplitWords c.NSplit "").foldl incA c.UniqueWords = _
    rw [splitWords_empty h]
    rfl
  · rw [train_lookup_self, splitWords_empty h]
    simp [trainWord]
  · rw [train_lookup_self, splitWords_empty h]
    simp [trainWord]

/-- Witness for the amended C2 on a fresh classifier with `nSplit = 1`. -/
theorem train_increments_empty_sentence_one_gram_witness :
    1 ≤ (NewClassifier 1).NSplit ∧
    ((Train (NewClassifier 1) "x" "y z").Documents
        = (NewClassifier 1).Documents + 1 ∧
      ((lookupA (Train (NewClassifier 1) "x" "y z").Classes "x").map
          Class.Documents)
        = some (((lookupA (NewClassifier 1).Classes "x").getD
            emptyClass).Documents + 1) ∧
      SplitWords (NewClassifier 1).NSplit "" = [""] ∧
      (Train (NewClassifier 1) "x" "").UniqueWords
        = incA (NewClassifier 1).UniqueWords "" ∧
      ((lookupA (Train (NewClassifier 1) "x" "").Classes "x").map
          Class.Words)
        = some (((lookupA (NewClassifier 1).Classes "x").getD
            emptyClass).Words ++ [""]) ∧
      ((lookupA (Train (NewClassifier 1) "x" "").Classes "x").map
          Class.WordFreq)
        = some (incA ((lookupA (NewClassifier 1).Classes "x").getD
            emptyClass).WordFreq "")) :=
  ⟨le_refl 1,
    train_increments_empty_sentence_one_gram (NewClassifier 1) "x" "y z"
      (le_refl 1)⟩

end NaiveBayes
